import Mathlib

/-!
# PCA pipeline of the COMP-3610 lab notebook, formalised

The notebook `src/labs/lab3/PCA.ipynb` walks through classical PCA on the
iris table: standardize (`StandardScaler().fit_transform`), covariance
(`np.cov`), eigendecomposition (`np.linalg.eig`), sort eigenpairs by
eigenvalue, take the top `K`, and project.  Only the standardization call is
actually filled in; the remaining cells are exercise stubs, so those stages
are modelled from the spec's component contracts.

The pipeline is embedded over `ℚ` so that every stage is exact and
executable.  Square roots are handled by passing the per-column scale vector
explicitly, together with the predicate `IsStdScale` pinning it to the
population standard deviation (with sklearn's zero-variance fallback to 1).
The eigendecomposer itself is additionally modelled over `ℝ` through
Mathlib's spectral theorem, matching the contract for `np.linalg.eig` on a
symmetric matrix.
-/

namespace PCA

open scoped Matrix

/-- A length-`D` feature vector. -/
abbrev Vec (D : ℕ) : Type := Fin D → ℚ

/-- An `N×D` data matrix (N samples, D features). -/
abbrev Mat (N D : ℕ) : Type := Matrix (Fin N) (Fin D) ℚ

/-- Dot product of two feature vectors. -/
def dotQ {D : ℕ} (u v : Vec D) : ℚ := ∑ j, u j * v j

/-- Mean of column `j` of `X`. -/
def colMean {N D : ℕ} (X : Mat N D) (j : Fin D) : ℚ := (∑ i, X i j) / N

/-- Population variance (ddof=0 divisor `N`) of column `j`, as used by
sklearn's `StandardScaler`. -/
def popVar {N D : ℕ} (X : Mat N D) (j : Fin D) : ℚ :=
  (∑ i, (X i j - colMean X j) ^ 2) / N

/-- Unbiased sample variance (ddof=1 divisor `N-1`) of column `j`, as used by
`np.cov`'s default. -/
def sampleVar {N D : ℕ} (X : Mat N D) (j : Fin D) : ℚ :=
  (∑ i, (X i j - colMean X j) ^ 2) / ((N : ℚ) - 1)

/-- Standardized matrix: column `j` is centered by its mean and divided by the
scale `s j`.  `StandardScaler().fit_transform(data)` in the notebook is this
map with `s j` the population standard deviation of column `j` (see
`IsStdScale`); scaling disabled corresponds to `s j = 1`. -/
def standardize {N D : ℕ} (X : Mat N D) (s : Vec D) : Mat N D :=
  Matrix.of fun i j => (X i j - colMean X j) / s j

/-- `s` is the scale vector `StandardScaler` uses on `X`: the population
standard deviation of each column, except that sklearn replaces a zero
standard deviation by `1` (its documented `_handle_zeros_in_scale`
behaviour) instead of raising. -/
def IsStdScale {N D : ℕ} (X : Mat N D) (s : Vec D) : Prop :=
  ∀ j, 0 < s j ∧ (if popVar X j = 0 then s j = 1 else (s j) ^ 2 = popVar X j)

instance {N D : ℕ} (X : Mat N D) (s : Vec D) : Decidable (IsStdScale X s) := by
  unfold IsStdScale; infer_instance

/-- The error taxonomy of the spec's Standardizer. -/
inductive StdError : Type
  | degenerateFeature : StdError
deriving DecidableEq

/-- The notebook's standardization step
`std_data = StandardScaler().fit_transform(data)`: sklearn's scaler never
raises on a zero-variance column (it scales it by 1), so the result is always
`Except.ok` of the standardized matrix. -/
def standardScaler {N D : ℕ} (X : Mat N D) (s : Vec D) :
    Except StdError (Mat N D) :=
  Except.ok (standardize X s)

/-- Modelled from the spec: the Covariance Estimator (the notebook's `np.cov`
cell is an unfilled exercise stub).  `np.cov` on the transposed standardized
data computes entry `(a,b)` as the centered cross product divided by `N-1`
(its default `ddof=1`, the unbiased estimator). -/
def npCov {N D : ℕ} (X : Mat N D) : Matrix (Fin D) (Fin D) ℚ :=
  Matrix.of fun a b =>
    (∑ i, (X i a - colMean X a) * (X i b - colMean X b)) / ((N : ℚ) - 1)

/-! ### Standardizer and covariance lemmas -/

lemma colMean_standardize {N D : ℕ} (X : Mat N D) (s : Vec D) (hN : 1 ≤ N)
    (j : Fin D) : colMean (standardize X s) j = 0 := by
  have hNQ : (N : ℚ) ≠ 0 := Nat.cast_ne_zero.mpr (by omega)
  have hz : ∑ i, (X i j - colMean X j) = 0 := by
    rw [Finset.sum_sub_distrib, Finset.sum_const, Finset.card_univ,
      Fintype.card_fin, nsmul_eq_mul, colMean]
    field_simp
  show (∑ i, standardize X s i j) / (N : ℚ) = 0
  simp only [standardize, Matrix.of_apply]
  rw [← Finset.sum_div, hz, zero_div, zero_div]

lemma sum_centered_sq {N D : ℕ} (X : Mat N D) (hN : 1 ≤ N) (j : Fin D) :
    ∑ i, (X i j - colMean X j) ^ 2 = (N : ℚ) * popVar X j := by
  have hNQ : (N : ℚ) ≠ 0 := Nat.cast_ne_zero.mpr (by omega)
  rw [popVar]
  field_simp

lemma sum_sq_standardize {N D : ℕ} (X : Mat N D) (s : Vec D) (hN : 1 ≤ N)
    (j : Fin D) :
    ∑ i, (standardize X s i j - colMean (standardize X s) j) ^ 2 =
      (N : ℚ) * popVar X j / (s j) ^ 2 := by
  rw [colMean_standardize X s hN j]
  simp only [standardize, Matrix.of_apply, sub_zero, div_pow]
  rw [← Finset.sum_div, sum_centered_sq X hN j]

lemma popVar_standardize {N D : ℕ} (X : Mat N D) (s : Vec D) (hN : 1 ≤ N)
    (j : Fin D) (hs : s j ≠ 0) (h2 : (s j) ^ 2 = popVar X j) :
    popVar (standardize X s) j = 1 := by
  have hNQ : (N : ℚ) ≠ 0 := Nat.cast_ne_zero.mpr (by omega)
  rw [popVar, sum_sq_standardize X s hN j, ← h2]
  field_simp

lemma sampleVar_standardize {N D : ℕ} (X : Mat N D) (s : Vec D) (hN : 2 ≤ N)
    (j : Fin D) (hs : s j ≠ 0) (h2 : (s j) ^ 2 = popVar X j) :
    sampleVar (standardize X s) j = (N : ℚ) / ((N : ℚ) - 1) := by
  rw [sampleVar, sum_sq_standardize X s (by omega) j, ← h2]
  have hs2 : (s j) ^ 2 ≠ 0 := pow_ne_zero _ hs
  field_simp

lemma npCov_diag {N D : ℕ} (X : Mat N D) (j : Fin D) :
    npCov X j j = sampleVar X j := by
  simp only [npCov, Matrix.of_apply, sampleVar]
  congr 1
  exact Finset.sum_congr rfl fun i _ => (pow_two _).symm

/-! ### C3: the covariance estimator -/

/-- C3: for every `N×D` standardized matrix with `N ≥ 2`, the covariance
estimator (`np.cov`, ddof=1) returns the `D×D` unbiased sample covariance
matrix — entry `(a,b)` is the centered cross product divided by `N-1`, the
diagonal is the unbiased sample variance — and the returned matrix is
exactly symmetric. -/
theorem npCov_unbiased_symm {N D : ℕ} (X : Mat N D) (_hN : 2 ≤ N) :
    (npCov X).IsSymm ∧
    (∀ a b, npCov X a b =
      (∑ i, (X i a - colMean X a) * (X i b - colMean X b)) / ((N : ℚ) - 1)) ∧
    (∀ j, npCov X j j = sampleVar X j) := by
  refine ⟨?_, fun a b => rfl, fun j => npCov_diag X j⟩
  ext a b
  simp only [Matrix.transpose_apply, npCov, Matrix.of_apply]
  congr 1
  exact Finset.sum_congr rfl fun i _ => mul_comm _ _

/-- Witness for C3 at the concrete 2×1 matrix with entries 1, 3. -/
theorem npCov_unbiased_symm_witness :
    2 ≤ 2 ∧
    ((npCov (!![(1 : ℚ); 3] : Mat 2 1)).IsSymm ∧
    (∀ a b, npCov (!![(1 : ℚ); 3] : Mat 2 1) a b =
      (∑ i, ((!![(1 : ℚ); 3] : Mat 2 1) i a -
          colMean (!![(1 : ℚ); 3] : Mat 2 1) a) *
        ((!![(1 : ℚ); 3] : Mat 2 1) i b -
          colMean (!![(1 : ℚ); 3] : Mat 2 1) b)) / ((2 : ℚ) - 1)) ∧
    (∀ j, npCov (!![(1 : ℚ); 3] : Mat 2 1) j j =
      sampleVar (!![(1 : ℚ); 3] : Mat 2 1) j)) :=
  ⟨by decide, npCov_unbiased_symm (!![(1 : ℚ); 3] : Mat 2 1) (by decide)⟩

/-! ### C4: the standardizer -/

/-- C4: the Standardizer returns a matrix of identical shape (the model's
type `Mat N D` is preserved) whose entry `(i,j)` is
`(x_ij - mean_j) / scale_j`, with `scale_j = 1` reducing to pure centering,
every column of the result has zero mean, and when scaling is enabled
(`scale_j` the population standard deviation, nonzero) the column has unit
variance.  The model is a Lean function, so it is pure with no side effects
on its input. -/
theorem standardize_contract {N D : ℕ} (X : Mat N D) (s : Vec D) (hN : 1 ≤ N) :
    (∀ i j, standardize X s i j = (X i j - colMean X j) / s j) ∧
    (∀ i j, standardize X (fun _ => (1 : ℚ)) i j = X i j - colMean X j) ∧
    (∀ j, colMean (standardize X s) j = 0) ∧
    (∀ j, s j ≠ 0 → (s j) ^ 2 = popVar X j →
      popVar (standardize X s) j = 1) := by
  refine ⟨fun i j => rfl, fun i j => ?_, fun j => colMean_standardize X s hN j,
    fun j hs h2 => popVar_standardize X s hN j hs h2⟩
  simp [standardize]

/-- Witness for C4 at the concrete 2×1 matrix with entries 0, 2 and unit
scale: its single column has mean 1 and population variance 1. -/
theorem standardize_contract_witness :
    1 ≤ 2 ∧
    ((∀ i j, standardize (!![(0 : ℚ); 2] : Mat 2 1) ![1] i j =
      ((!![(0 : ℚ); 2] : Mat 2 1) i j -
        colMean (!![(0 : ℚ); 2] : Mat 2 1) j) / (![1] : Vec 1) j) ∧
    (∀ i j, standardize (!![(0 : ℚ); 2] : Mat 2 1) (fun _ => (1 : ℚ)) i j =
      (!![(0 : ℚ); 2] : Mat 2 1) i j - colMean (!![(0 : ℚ); 2] : Mat 2 1) j) ∧
    (∀ j, colMean (standardize (!![(0 : ℚ); 2] : Mat 2 1) ![1]) j = 0) ∧
    (∀ j, (![1] : Vec 1) j ≠ 0 →
      ((![1] : Vec 1) j) ^ 2 = popVar (!![(0 : ℚ); 2] : Mat 2 1) j →
      popVar (standardize (!![(0 : ℚ); 2] : Mat 2 1) ![1]) j = 1)) :=
  ⟨by decide, standardize_contract (!![(0 : ℚ); 2] : Mat 2 1) ![1] (by decide)⟩

/-! ### C9: the degenerate-column policy -/

/-- The 2×2 fixture whose first column is constant (zero variance) and whose
second column has population variance 1. -/
def Xdeg : Mat 2 2 := !![1, 0; 1, 2]

/-- The scale sklearn uses on `Xdeg`: 1 for the zero-variance column (its
fallback) and 1 (= √1) for the second column. -/
def sdeg : Vec 2 := ![1, 1]

lemma popVar_Xdeg_zero : popVar Xdeg 0 = 0 := by
  norm_num [popVar, colMean, Xdeg, Fin.sum_univ_succ]

lemma popVar_Xdeg_one : popVar Xdeg 1 = 1 := by
  norm_num [popVar, colMean, Xdeg, Fin.sum_univ_succ]

lemma isStdScale_Xdeg : IsStdScale Xdeg sdeg := by
  unfold IsStdScale
  rw [Fin.forall_fin_two]
  refine ⟨⟨by norm_num [sdeg], ?_⟩, ⟨by norm_num [sdeg], ?_⟩⟩
  · rw [if_pos popVar_Xdeg_zero]
    norm_num [sdeg]
  · rw [if_neg (by rw [popVar_Xdeg_one]; norm_num), popVar_Xdeg_one]
    norm_num [sdeg]

lemma standardize_Xdeg : standardize Xdeg sdeg = (!![0, -1; 0, 1] : Mat 2 2) := by
  ext i j
  fin_cases i <;> fin_cases j <;>
    norm_num [standardize, colMean, Xdeg, sdeg, Fin.sum_univ_succ]

/-- Counterexample to C9: on a matrix with one constant column and scaling
enabled, the notebook's standardizer (`StandardScaler().fit_transform`) does
not fail with `DegenerateFeatureError`; it produces an output in which the
constant column is mapped to all zeros. -/
theorem standardScaler_constant_column_no_error :
    IsStdScale Xdeg sdeg ∧
    standardScaler Xdeg sdeg ≠ Except.error StdError.degenerateFeature ∧
    standardScaler Xdeg sdeg = Except.ok (!![0, -1; 0, 1] : Mat 2 2) ∧
    (∀ i, standardize Xdeg sdeg i 0 = 0) := by
  refine ⟨isStdScale_Xdeg, by simp [standardScaler], ?_, fun i => ?_⟩
  · rw [standardScaler, standardize_Xdeg]
  · rw [standardize_Xdeg]
    fin_cases i <;> norm_num

/-- C9 (amended): when scaling is requested and a column of the input has
zero standard deviation, the Standardizer does not raise; following
sklearn's documented zero-variance fallback it uses scale 1 for that column
and succeeds, returning a standardized matrix whose degenerate column is
identically zero. -/
theorem standardScaler_zero_variance_scale_one {N D : ℕ} (X : Mat N D)
    (s : Vec D) (hN : 1 ≤ N) (hs : IsStdScale X s) (j : Fin D)
    (hj : popVar X j = 0) :
    s j = 1 ∧ standardScaler X s = Except.ok (standardize X s) ∧
    (∀ i, standardize X s i j = 0) := by
  refine ⟨?_, rfl, fun i => ?_⟩
  · have h := (hs j).2
    rwa [if_pos hj] at h
  · have hS : ∑ i, (X i j - colMean X j) ^ 2 = 0 := by
      rw [sum_centered_sq X hN j, hj, mul_zero]
    have hterm := (Finset.sum_eq_zero_iff_of_nonneg
      (fun i _ => sq_nonneg (X i j - colMean X j))).mp hS
    have hzero : X i j - colMean X j = 0 :=
      pow_eq_zero_iff (n := 2) (by omega) |>.mp (hterm i (Finset.mem_univ i))
    simp only [standardize, Matrix.of_apply, hzero, zero_div]

/-- Witness for the amended C9 at the fixture `Xdeg`, whose first column is
constant. -/
theorem standardScaler_zero_variance_scale_one_witness :
    (1 ≤ 2 ∧ IsStdScale Xdeg sdeg ∧ popVar Xdeg 0 = 0) ∧
    (sdeg 0 = 1 ∧ standardScaler Xdeg sdeg = Except.ok (standardize Xdeg sdeg) ∧
      (∀ i, standardize Xdeg sdeg i 0 = 0)) :=
  ⟨⟨by decide, isStdScale_Xdeg, popVar_Xdeg_zero⟩,
    standardScaler_zero_variance_scale_one Xdeg sdeg (by decide) isStdScale_Xdeg
      0 popVar_Xdeg_zero⟩

/-! ### C10: population moments of the notebook's standardized output -/

/-- C10: `StandardScaler().fit_transform` divides each centered column by the
population standard deviation (divisor `N`), so each column of the
standardized output has population (ddof=0) variance exactly 1 and sample
(ddof=1) variance `N/(N-1)`, and the unbiased sample covariance matrix of
the output has diagonal entries `N/(N-1)` rather than exactly 1. -/
theorem standardScaler_population_moments {N D : ℕ} (X : Mat N D) (s : Vec D)
    (hN : 2 ≤ N) (hs : ∀ j, s j ≠ 0 ∧ (s j) ^ 2 = popVar X j) :
    (∀ j, popVar (standardize X s) j = 1) ∧
    (∀ j, sampleVar (standardize X s) j = (N : ℚ) / ((N : ℚ) - 1)) ∧
    (∀ j, npCov (standardize X s) j j = (N : ℚ) / ((N : ℚ) - 1)) := by
  have h1 : ∀ j, popVar (standardize X s) j = 1 := fun j =>
    popVar_standardize X s (by omega) j (hs j).1 (hs j).2
  have h2 : ∀ j, sampleVar (standardize X s) j = (N : ℚ) / ((N : ℚ) - 1) :=
    fun j => sampleVar_standardize X s hN j (hs j).1 (hs j).2
  exact ⟨h1, h2, fun j => (npCov_diag (standardize X s) j).trans (h2 j)⟩

/-- Witness for C10 at the 2×1 matrix with entries 0, 2 (population variance
1, so unit scale), where the sample variance of the standardized column is
2/(2-1) = 2. -/
theorem standardScaler_population_moments_witness :
    (2 ≤ 2 ∧ (∀ j, (![1] : Vec 1) j ≠ 0 ∧
      ((![1] : Vec 1) j) ^ 2 = popVar (!![(0 : ℚ); 2] : Mat 2 1) j)) ∧
    ((∀ j, popVar (standardize (!![(0 : ℚ); 2] : Mat 2 1) ![1]) j = 1) ∧
    (∀ j, sampleVar (standardize (!![(0 : ℚ); 2] : Mat 2 1) ![1]) j =
      (2 : ℚ) / ((2 : ℚ) - 1)) ∧
    (∀ j, npCov (standardize (!![(0 : ℚ); 2] : Mat 2 1) ![1]) j j =
      (2 : ℚ) / ((2 : ℚ) - 1))) :=
  ⟨⟨by decide, fun j => by
      fin_cases j
      exact ⟨by norm_num, by norm_num [popVar, colMean, Fin.sum_univ_succ]⟩⟩,
    standardScaler_population_moments (!![(0 : ℚ); 2] : Mat 2 1) ![1]
      (by decide) (fun j => by
        fin_cases j
        exact ⟨by norm_num, by norm_num [popVar, colMean, Fin.sum_univ_succ]⟩)⟩

/-! ### EigenPairs, sorting and projection

The notebook's eigendecomposition, sorting and projection cells are unfilled
exercise stubs, so these stages are modelled from the spec's contracts. -/

/-- A list of vectors is orthonormal: each has unit dot square and distinct
entries are orthogonal. -/
def OrthonormalVecs {D : ℕ} (vs : List (Vec D)) : Prop :=
  (∀ v ∈ vs, dotQ v v = 1) ∧ List.Pairwise (fun u v => dotQ u v = 0) vs

/-- Modelled from the spec: a full EigenPair set for `C` (the Eigendecomposer
cell is an unfilled stub) — exactly `D` pairs, mutually orthonormal
eigenvectors, and `C v = λ v` for each pair. -/
def IsEigenDecomp {D : ℕ} (C : Matrix (Fin D) (Fin D) ℚ)
    (pairs : List (ℚ × Vec D)) : Prop :=
  pairs.length = D ∧ OrthonormalVecs (pairs.map Prod.snd) ∧
    ∀ p ∈ pairs, C.mulVec p.2 = p.1 • p.2

/-- Comparison used to sort index-tagged eigenpairs: strictly larger
eigenvalue first, ties broken by the original index (stability). -/
def pairLE {D : ℕ} (a b : ℕ × (ℚ × Vec D)) : Bool :=
  decide (b.2.1 < a.2.1 ∨ (a.2.1 = b.2.1 ∧ a.1 ≤ b.1))

/-- Modelled from the spec: stable sort of the EigenPair set by eigenvalue
descending (tag with the original index, mergesort by
eigenvalue-then-index, drop the tags). -/
def sortEigenPairs {D : ℕ} (pairs : List (ℚ × Vec D)) : List (ℚ × Vec D) :=
  ((pairs.enum).mergeSort pairLE).map Prod.snd

/-- Modelled from the spec: the PrincipalBasis is the first `K` sorted
EigenPairs. -/
def principalBasis {D : ℕ} (pairs : List (ℚ × Vec D)) (K : ℕ) :
    List (ℚ × Vec D) :=
  (sortEigenPairs pairs).take K

/-- The basis vectors of the PrincipalBasis, in order. -/
def basisVectors {D : ℕ} (pairs : List (ℚ × Vec D)) (K : ℕ) : List (Vec D) :=
  (principalBasis pairs K).map Prod.snd

/-- Modelled from the spec: ProjectedMatrix = StandardizedMatrix × basis
vectors as columns; entry `(i,k)` is the dot product of row `i` with the
`k`-th basis vector. -/
def projector {N D : ℕ} (X : Mat N D) (vs : List (Vec D)) :
    Matrix (Fin N) (Fin vs.length) ℚ :=
  Matrix.of fun i k => dotQ (X i) (vs.get k)

/-- Modelled from the spec: explained variance ratio of component `k` =
eigenvalue_k / sum of all eigenvalues. -/
def explainedVarianceRatio {D : ℕ} (pairs : List (ℚ × Vec D))
    (k : Fin pairs.length) : ℚ :=
  (pairs.get k).1 / (pairs.map Prod.fst).sum

/-! ### Sorting lemmas -/

lemma pairLE_trans {D : ℕ} (a b c : ℕ × (ℚ × Vec D)) :
    pairLE a b → pairLE b c → pairLE a c := by
  simp only [pairLE, decide_eq_true_eq]
  rintro (h1 | ⟨h1, h1'⟩) (h2 | ⟨h2, h2'⟩)
  · exact Or.inl (h2.trans h1)
  · exact Or.inl (by rw [← h2]; exact h1)
  · exact Or.inl (by rw [h1]; exact h2)
  · exact Or.inr ⟨h1.trans h2, Nat.le_trans h1' h2'⟩

lemma pairLE_total {D : ℕ} (a b : ℕ × (ℚ × Vec D)) : pairLE a b || pairLE b a := by
  simp only [pairLE, Bool.or_eq_true, decide_eq_true_eq]
  rcases lt_trichotomy a.2.1 b.2.1 with h | h | h
  · exact Or.inr (Or.inl h)
  · rcases Nat.le_total a.1 b.1 with h' | h'
    · exact Or.inl (Or.inr ⟨h, h'⟩)
    · exact Or.inr (Or.inr ⟨h.symm, h'⟩)
  · exact Or.inl (Or.inl h)

lemma sortEigenPairs_perm {D : ℕ} (pairs : List (ℚ × Vec D)) :
    (sortEigenPairs pairs).Perm pairs := by
  have h := (List.mergeSort_perm pairs.enum pairLE).map Prod.snd
  rwa [List.enum_map_snd] at h

lemma sortEigenPairs_length {D : ℕ} (pairs : List (ℚ × Vec D)) :
    (sortEigenPairs pairs).length = pairs.length :=
  (sortEigenPairs_perm pairs).length_eq

lemma mergeSort_enum_pairwise {D : ℕ} (pairs : List (ℚ × Vec D)) :
    List.Pairwise (fun a b : ℕ × (ℚ × Vec D) =>
      b.2.1 < a.2.1 ∨ (a.2.1 = b.2.1 ∧ a.1 ≤ b.1))
      ((pairs.enum).mergeSort pairLE) := by
  have h := @List.sorted_mergeSort _ pairLE
    (fun a b c => pairLE_trans a b c) (fun a b => pairLE_total a b) pairs.enum
  exact h.imp fun hab => by
    simpa only [pairLE, decide_eq_true_eq] using hab

lemma sortEigenPairs_sorted {D : ℕ} (pairs : List (ℚ × Vec D)) :
    List.Pairwise (fun p q : ℚ × Vec D => q.1 ≤ p.1) (sortEigenPairs pairs) := by
  rw [sortEigenPairs, List.pairwise_map]
  exact (mergeSort_enum_pairwise pairs).imp fun h => by
    rcases h with h | ⟨h, _⟩
    · exact le_of_lt h
    · exact le_of_eq h.symm

/-! ### C2: the projector -/

/-- C2: for a full EigenPair set of size `D` and `1 ≤ K ≤ D`, the Projector
sorts the pairs by eigenvalue descending (stably: ties keep the original
index order, witnessed by the pairwise relation on the index-tagged sorted
list), takes exactly the first `K` as the PrincipalBasis (`K` vectors), and
the projected matrix is the `N×K` matrix whose `(i,k)` entry is the dot
product of row `i` of `X` with basis vector `k`. -/
theorem projector_sorts_and_projects {N D K : ℕ} (pairs : List (ℚ × Vec D))
    (X : Mat N D) (hlen : pairs.length = D) (_hK1 : 1 ≤ K) (hK : K ≤ D) :
    (sortEigenPairs pairs).Perm pairs ∧
    List.Pairwise (fun p q : ℚ × Vec D => q.1 ≤ p.1) (sortEigenPairs pairs) ∧
    List.Pairwise (fun a b : ℕ × (ℚ × Vec D) =>
      b.2.1 < a.2.1 ∨ (a.2.1 = b.2.1 ∧ a.1 ≤ b.1))
      ((pairs.enum).mergeSort pairLE) ∧
    principalBasis pairs K = (sortEigenPairs pairs).take K ∧
    (basisVectors pairs K).length = K ∧
    (∀ (i : Fin N) (k : Fin (basisVectors pairs K).length),
      projector X (basisVectors pairs K) i k =
        ∑ j, X i j * (basisVectors pairs K).get k j) := by
  refine ⟨sortEigenPairs_perm pairs, sortEigenPairs_sorted pairs,
    mergeSort_enum_pairwise pairs, rfl, ?_, fun i k => rfl⟩
  rw [basisVectors, List.length_map, principalBasis, List.length_take,
    sortEigenPairs_length, hlen]
  omega

/-- The 2-pair fixture used by the witnesses: eigenvalues 1 and 2 with the
two standard basis vectors. -/
def pairsW : List (ℚ × Vec 2) := [(1, ![1, 0]), (2, ![0, 1])]

/-- A 1×2 data fixture. -/
def XW : Mat 1 2 := !![3, 5]

/-- Witness for C2 at the fixture `pairsW`, `K = 1`. -/
theorem projector_sorts_and_projects_witness :
    (pairsW.length = 2 ∧ 1 ≤ 1 ∧ 1 ≤ 2) ∧
    ((sortEigenPairs pairsW).Perm pairsW ∧
    List.Pairwise (fun p q : ℚ × Vec 2 => q.1 ≤ p.1) (sortEigenPairs pairsW) ∧
    List.Pairwise (fun a b : ℕ × (ℚ × Vec 2) =>
      b.2.1 < a.2.1 ∨ (a.2.1 = b.2.1 ∧ a.1 ≤ b.1))
      ((pairsW.enum).mergeSort pairLE) ∧
    principalBasis pairsW 1 = (sortEigenPairs pairsW).take 1 ∧
    (basisVectors pairsW 1).length = 1 ∧
    (∀ (i : Fin 1) (k : Fin (basisVectors pairsW 1).length),
      projector XW (basisVectors pairsW 1) i k =
        ∑ j, XW i j * (basisVectors pairsW 1).get k j)) :=
  ⟨⟨rfl, le_refl 1, by omega⟩,
    projector_sorts_and_projects pairsW XW rfl (le_refl 1) (by omega)⟩

/-! ### Orthonormal vector lists as orthogonal matrices -/

lemma dotQ_comm {D : ℕ} (u v : Vec D) : dotQ u v = dotQ v u :=
  Finset.sum_congr rfl fun _ _ => mul_comm _ _

lemma orthonormalVecs_perm {D : ℕ} {vs ws : List (Vec D)} (hp : vs.Perm ws)
    (h : OrthonormalVecs vs) : OrthonormalVecs ws :=
  ⟨fun v hv => h.1 v (hp.symm.subset hv),
    (hp.pairwise_iff fun h' => by rw [dotQ_comm]; exact h').mp h.2⟩

lemma orthonormalVecs_get {D : ℕ} {vs : List (Vec D)} (h : OrthonormalVecs vs)
    (k l : Fin vs.length) :
    dotQ (vs.get k) (vs.get l) = if k = l then 1 else 0 := by
  rcases lt_trichotomy (k : ℕ) (l : ℕ) with hkl | hkl | hkl
  · rw [if_neg fun h' => absurd (congrArg Fin.val h') (Nat.ne_of_lt hkl)]
    have hpw := List.pairwise_iff_getElem.mp h.2 k l k.isLt l.isLt hkl
    simpa only [List.get_eq_getElem] using hpw
  · have hkl' : k = l := Fin.ext hkl
    rw [if_pos hkl', hkl']
    exact h.1 _ (List.get_mem vs l.1 l.isLt)
  · rw [if_neg fun h' => absurd (congrArg Fin.val h') (Nat.ne_of_gt hkl)]
    have hpw := List.pairwise_iff_getElem.mp h.2 l k l.isLt k.isLt hkl
    rw [dotQ_comm]
    simpa only [List.get_eq_getElem] using hpw

/-- The `D×D` matrix whose `k`-th column is the `k`-th vector of the list. -/
def colMat {D : ℕ} (vs : List (Vec D)) (h : vs.length = D) :
    Matrix (Fin D) (Fin D) ℚ :=
  Matrix.of fun j k => vs.get (Fin.cast h.symm k) j

lemma colMat_orth {D : ℕ} (vs : List (Vec D)) (h : vs.length = D)
    (ho : OrthonormalVecs vs) : (colMat vs h)ᵀ * colMat vs h = 1 := by
  ext k l
  have hd := orthonormalVecs_get ho (Fin.cast h.symm k) (Fin.cast h.symm l)
  rw [dotQ] at hd
  rw [Matrix.mul_apply, Matrix.one_apply]
  simp only [Matrix.transpose_apply, colMat, Matrix.of_apply]
  rw [hd]
  by_cases hkl : k = l
  · rw [if_pos (by rw [hkl]), if_pos hkl]
  · rw [if_neg fun hc => hkl (Fin.ext (by
      simpa only [Fin.coe_cast] using congrArg Fin.val hc)), if_neg hkl]

lemma colMat_mul_transpose {D : ℕ} (vs : List (Vec D)) (h : vs.length = D)
    (ho : OrthonormalVecs vs) : colMat vs h * (colMat vs h)ᵀ = 1 :=
  Matrix.mul_eq_one_comm.mp (colMat_orth vs h ho)

lemma vecMul_colMat {D : ℕ} (vs : List (Vec D)) (h : vs.length = D)
    (x : Vec D) (k : Fin D) :
    Matrix.vecMul x (colMat vs h) k = dotQ x (vs.get (Fin.cast h.symm k)) :=
  rfl

/-- Parseval for a list of `D` orthonormal vectors of `ℚ^D`: the coordinates
of `x` in that basis have the same sum of squares as `x`. -/
lemma sum_sq_dot_orthonormal {D : ℕ} (vs : List (Vec D)) (h : vs.length = D)
    (ho : OrthonormalVecs vs) (x : Vec D) :
    ∑ k : Fin vs.length, (dotQ x (vs.get k)) ^ 2 = ∑ j, (x j) ^ 2 := by
  have hBBt := colMat_mul_transpose vs h ho
  have hvm : Matrix.vecMul x (colMat vs h) = Matrix.mulVec (colMat vs h)ᵀ x :=
    (Matrix.mulVec_transpose (colMat vs h) x).symm
  have key : Matrix.dotProduct (Matrix.vecMul x (colMat vs h))
      (Matrix.vecMul x (colMat vs h)) = Matrix.dotProduct x x := by
    rw [hvm, Matrix.dotProduct_mulVec, Matrix.vecMul_transpose,
      Matrix.mulVec_mulVec, hBBt, Matrix.one_mulVec]
  calc ∑ k : Fin vs.length, (dotQ x (vs.get k)) ^ 2
      = ∑ k : Fin D, (dotQ x (vs.get (Fin.cast h.symm k))) ^ 2 := by
        exact Fintype.sum_equiv (finCongr h) _ _ fun k => rfl
    _ = Matrix.dotProduct (Matrix.vecMul x (colMat vs h))
          (Matrix.vecMul x (colMat vs h)) := by
        rw [Matrix.dotProduct]
        refine Finset.sum_congr rfl fun k _ => ?_
        rw [vecMul_colMat, pow_two]
    _ = Matrix.dotProduct x x := key
    _ = ∑ j, (x j) ^ 2 := Finset.sum_congr rfl fun j _ => (pow_two _).symm

/-! ### C6: projection with K = D is an orthogonal rotation -/

lemma basisVectors_full {D : ℕ} (pairs : List (ℚ × Vec D))
    (hlen : pairs.length = D) :
    basisVectors pairs D = (sortEigenPairs pairs).map Prod.snd := by
  rw [basisVectors, principalBasis, List.take_of_length_le]
  rw [sortEigenPairs_length, hlen]

lemma basisVectors_full_length {D : ℕ} (pairs : List (ℚ × Vec D))
    (hlen : pairs.length = D) : (basisVectors pairs D).length = D := by
  rw [basisVectors_full pairs hlen, List.length_map, sortEigenPairs_length, hlen]

lemma basisVectors_full_orthonormal {D : ℕ} (pairs : List (ℚ × Vec D))
    (hlen : pairs.length = D) (ho : OrthonormalVecs (pairs.map Prod.snd)) :
    OrthonormalVecs (basisVectors pairs D) := by
  rw [basisVectors_full pairs hlen]
  exact orthonormalVecs_perm ((sortEigenPairs_perm pairs).map Prod.snd).symm ho

/-- C6: projecting with `K = D` is an orthogonal change of basis: for every
row `i`, the sum of squares of row `i` of the ProjectedMatrix equals the sum
of squares of row `i` of the input (equality of squared Euclidean norms, the
exact-arithmetic form of "per-row norm is preserved"). -/
theorem projection_preserves_row_norms {N D : ℕ} (C : Matrix (Fin D) (Fin D) ℚ)
    (pairs : List (ℚ × Vec D)) (X : Mat N D) (h : IsEigenDecomp C pairs) :
    ∀ i : Fin N, ∑ k : Fin (basisVectors pairs D).length,
      (projector X (basisVectors pairs D) i k) ^ 2 = ∑ j, (X i j) ^ 2 :=
  fun i => sum_sq_dot_orthonormal (basisVectors pairs D)
    (basisVectors_full_length pairs h.1)
    (basisVectors_full_orthonormal pairs h.1 h.2.1) (fun j => X i j)

/-! ### C5: trace and explained variance -/

lemma trace_eq_sum_eigen {D : ℕ} (C : Matrix (Fin D) (Fin D) ℚ)
    (pairs : List (ℚ × Vec D)) (h : IsEigenDecomp C pairs) :
    C.trace = (pairs.map Prod.fst).sum := by
  obtain ⟨hlen, ho, heig⟩ := h
  have hvlen : (pairs.map Prod.snd).length = D := by rw [List.length_map, hlen]
  have hBtB := colMat_orth (pairs.map Prod.snd) hvlen ho
  have hBBt := Matrix.mul_eq_one_comm.mp hBtB
  have hget : ∀ k : Fin D, (pairs.map Prod.snd).get (Fin.cast hvlen.symm k) =
      (pairs.get (Fin.cast hlen.symm k)).2 := by
    intro k
    simp only [List.get_eq_getElem, Fin.coe_cast, List.getElem_map]
  have hCB : C * colMat (pairs.map Prod.snd) hvlen =
      colMat (pairs.map Prod.snd) hvlen *
        Matrix.diagonal (fun k : Fin D => (pairs.get (Fin.cast hlen.symm k)).1) := by
    ext j k
    rw [Matrix.mul_apply, Matrix.mul_diagonal]
    simp only [colMat, Matrix.of_apply, hget]
    have hmul : ∑ m, C j m * (pairs.get (Fin.cast hlen.symm k)).2 m =
        (C.mulVec (pairs.get (Fin.cast hlen.symm k)).2) j := rfl
    rw [hmul, heig _ (List.get_mem pairs _ _)]
    simp [mul_comm]
  calc C.trace
      = (C * (colMat (pairs.map Prod.snd) hvlen *
          (colMat (pairs.map Prod.snd) hvlen)ᵀ)).trace := by
        rw [hBBt, Matrix.mul_one]
    _ = ((C * colMat (pairs.map Prod.snd) hvlen) *
          (colMat (pairs.map Prod.snd) hvlen)ᵀ).trace := by
        rw [Matrix.mul_assoc]
    _ = ((colMat (pairs.map Prod.snd) hvlen *
          Matrix.diagonal (fun k : Fin D => (pairs.get (Fin.cast hlen.symm k)).1)) *
          (colMat (pairs.map Prod.snd) hvlen)ᵀ).trace := by rw [hCB]
    _ = ((colMat (pairs.map Prod.snd) hvlen)ᵀ *
          (colMat (pairs.map Prod.snd) hvlen *
          Matrix.diagonal (fun k : Fin D => (pairs.get (Fin.cast hlen.symm k)).1))).trace := by
        rw [Matrix.trace_mul_comm]
    _ = (((colMat (pairs.map Prod.snd) hvlen)ᵀ * colMat (pairs.map Prod.snd) hvlen) *
          Matrix.diagonal (fun k : Fin D => (pairs.get (Fin.cast hlen.symm k)).1)).trace := by
        rw [Matrix.mul_assoc]
    _ = (Matrix.diagonal (fun k : Fin D => (pairs.get (Fin.cast hlen.symm k)).1)).trace := by
        rw [hBtB, Matrix.one_mul]
    _ = ∑ k : Fin D, (pairs.get (Fin.cast hlen.symm k)).1 := Matrix.trace_diagonal _
    _ = ∑ i : Fin pairs.length, (pairs.get i).1 :=
        (Fintype.sum_equiv (finCongr hlen) (fun i => (pairs.get i).1) _ fun i => rfl).symm
    _ = (pairs.map Prod.fst).sum := by
        simp only [List.get_eq_getElem]
        exact Fin.sum_univ_get' pairs Prod.fst

/-- C5: for a full eigendecomposition, the sum of the `D` eigenvalues equals
the trace of the covariance matrix (exactly, hence within any tolerance),
each explained-variance ratio is `λ_k` divided by the eigenvalue sum, and
the ratios over all `D` components sum to exactly 1 (hence at most 1). -/
theorem eigen_trace_and_evr {D : ℕ} (C : Matrix (Fin D) (Fin D) ℚ)
    (pairs : List (ℚ × Vec D)) (h : IsEigenDecomp C pairs)
    (hsum : (pairs.map Prod.fst).sum ≠ 0) :
    C.trace = (pairs.map Prod.fst).sum ∧
    (∀ k : Fin pairs.length, explainedVarianceRatio pairs k =
      (pairs.get k).1 / (pairs.map Prod.fst).sum) ∧
    (∑ k : Fin pairs.length, explainedVarianceRatio pairs k) = 1 ∧
    (∑ k : Fin pairs.length, explainedVarianceRatio pairs k) ≤ 1 := by
  have hsum1 : (∑ k : Fin pairs.length, explainedVarianceRatio pairs k) = 1 := by
    simp only [explainedVarianceRatio]
    rw [← Finset.sum_div]
    rw [show ∑ k : Fin pairs.length, (pairs.get k).1 = (pairs.map Prod.fst).sum from by
      simp only [List.get_eq_getElem]
      exact Fin.sum_univ_get' pairs Prod.fst]
    exact div_self hsum
  exact ⟨trace_eq_sum_eigen C pairs h, fun k => rfl, hsum1, le_of_eq hsum1⟩

/-! ### The eigendecomposition fixture for the witnesses -/

/-- Diagonal fixture matrix whose EigenPair set is `pairsW`. -/
def CW : Matrix (Fin 2) (Fin 2) ℚ := !![1, 0; 0, 2]

lemma isEigen_CW : IsEigenDecomp CW pairsW := by
  refine ⟨rfl, ⟨?_, ?_⟩, ?_⟩
  · intro v hv
    rcases List.mem_cons.mp hv with h | hv
    · subst h; norm_num [dotQ, Fin.sum_univ_succ]
    rcases List.mem_cons.mp hv with h | hv
    · subst h; norm_num [dotQ, Fin.sum_univ_succ]
    exact absurd hv (List.not_mem_nil _)
  · refine List.Pairwise.cons ?_ (List.pairwise_singleton _ _)
    intro v hv
    rcases List.mem_cons.mp hv with h | hv
    · subst h; norm_num [dotQ, Fin.sum_univ_succ]
    exact absurd hv (List.not_mem_nil _)
  · intro p hp
    rcases List.mem_cons.mp hp with h | hp
    · subst h
      funext j
      fin_cases j <;>
        norm_num [CW, pairsW, Matrix.mulVec, Matrix.dotProduct, Fin.sum_univ_succ]
    rcases List.mem_cons.mp hp with h | hp
    · subst h
      funext j
      fin_cases j <;>
        norm_num [CW, pairsW, Matrix.mulVec, Matrix.dotProduct, Fin.sum_univ_succ]
    exact absurd hp (List.not_mem_nil _)

/-- Witness for C5 at the fixture `CW`, `pairsW` (eigenvalue sum 3). -/
theorem eigen_trace_and_evr_witness :
    ((pairsW.map Prod.fst).sum ≠ 0 ∧ IsEigenDecomp CW pairsW) ∧
    (CW.trace = (pairsW.map Prod.fst).sum ∧
    (∀ k : Fin pairsW.length, explainedVarianceRatio pairsW k =
      (pairsW.get k).1 / (pairsW.map Prod.fst).sum) ∧
    (∑ k : Fin pairsW.length, explainedVarianceRatio pairsW k) = 1 ∧
    (∑ k : Fin pairsW.length, explainedVarianceRatio pairsW k) ≤ 1) :=
  ⟨⟨by norm_num [pairsW], isEigen_CW⟩,
    eigen_trace_and_evr CW pairsW isEigen_CW (by norm_num [pairsW])⟩

/-- Witness for C6 at the fixture: projecting `XW` onto both components of
`pairsW` preserves the squared row norm. -/
theorem projection_preserves_row_norms_witness :
    IsEigenDecomp CW pairsW ∧
    (∀ i : Fin 1, ∑ k : Fin (basisVectors pairsW 2).length,
      (projector XW (basisVectors pairsW 2) i k) ^ 2 = ∑ j, (XW i j) ^ 2) :=
  ⟨isEigen_CW, projection_preserves_row_norms CW pairsW XW isEigen_CW⟩

/-! ### C7: nested-basis property -/

/-- C7: for component counts `K1 < K2` in `[1, D]`, the PrincipalBasis for
`K1` is the `K1`-prefix of the one for `K2`, and each of the first `K1`
columns of the `K2`-component projection equals the corresponding column of
the `K1`-component projection (exact equality — the fixed sign convention is
untouched by taking a prefix). -/
theorem projection_nested {N D : ℕ} (pairs : List (ℚ × Vec D)) (K1 K2 : ℕ)
    (_hK1 : 1 ≤ K1) (h12 : K1 < K2) (_hK2 : K2 ≤ D) (_hlen : pairs.length = D)
    (X : Mat N D) :
    principalBasis pairs K1 = (principalBasis pairs K2).take K1 ∧
    ∀ (i : Fin N) (k1 : Fin (basisVectors pairs K1).length)
      (k2 : Fin (basisVectors pairs K2).length), (k1 : ℕ) = (k2 : ℕ) →
      projector X (basisVectors pairs K1) i k1 =
        projector X (basisVectors pairs K2) i k2 := by
  refine ⟨?_, fun i k1 k2 hk => ?_⟩
  · rw [principalBasis, principalBasis, List.take_take,
      Nat.min_eq_left (le_of_lt h12)]
  · have hv : (basisVectors pairs K1).get k1 = (basisVectors pairs K2).get k2 := by
      simp only [basisVectors, List.get_eq_getElem, List.getElem_map,
        principalBasis, List.getElem_take, hk]
    simp only [projector, Matrix.of_apply, hv]

/-- Witness for C7 at the fixture `pairsW` with `K1 = 1 < K2 = 2`. -/
theorem projection_nested_witness :
    (1 ≤ 1 ∧ 1 < 2 ∧ 2 ≤ 2 ∧ pairsW.length = 2) ∧
    (principalBasis pairsW 1 = (principalBasis pairsW 2).take 1 ∧
    ∀ (i : Fin 1) (k1 : Fin (basisVectors pairsW 1).length)
      (k2 : Fin (basisVectors pairsW 2).length), (k1 : ℕ) = (k2 : ℕ) →
      projector XW (basisVectors pairsW 1) i k1 =
        projector XW (basisVectors pairsW 2) i k2) :=
  ⟨⟨le_refl 1, by omega, le_refl 2, rfl⟩,
    projection_nested pairsW 1 2 (le_refl 1) (by omega) (le_refl 2) rfl XW⟩

/-! ### C8: the sign convention and determinism -/

/-- One step of the scan for the largest-magnitude component: keep `b` over
`a` exactly when it is strictly larger in magnitude (so the earliest maximal
index wins). -/
def betterIdx {D : ℕ} (v : Vec D) (a b : Fin D) : Fin D :=
  if |v a| < |v b| then b else a

/-- Modelled from the spec: the index of the largest-magnitude component of
an eigenvector (first such index on ties). -/
def domIdx {D : ℕ} (v : Vec D) (hD : 0 < D) : Fin D :=
  (List.finRange D).foldl (betterIdx v) ⟨0, hD⟩

/-- Modelled from the spec: the eigenvector sign convention — negate the
vector when its largest-magnitude component is negative, so the returned
representative does not depend on the eigensolver's arbitrary sign choice. -/
def fixSign {D : ℕ} (hD : 0 < D) (v : Vec D) : Vec D :=
  if v (domIdx v hD) < 0 then (fun j => - v j) else v

/-- The sign convention applied to an EigenPair. -/
def fixSignPair {D : ℕ} (hD : 0 < D) (p : ℚ × Vec D) : ℚ × Vec D :=
  (p.1, fixSign hD p.2)

lemma foldl_betterIdx_ge {D : ℕ} (v : Vec D) :
    ∀ (l : List (Fin D)) (a : Fin D),
      |v a| ≤ |v (l.foldl (betterIdx v) a)| ∧
      ∀ b ∈ l, |v b| ≤ |v (l.foldl (betterIdx v) a)| := by
  intro l
  induction l with
  | nil => exact fun a => ⟨le_refl _, fun b hb => absurd hb (List.not_mem_nil _)⟩
  | cons c l ih =>
    intro a
    rw [List.foldl_cons]
    obtain ⟨h1, h2⟩ := ih (betterIdx v a c)
    have hac : |v a| ≤ |v (betterIdx v a c)| := by
      rw [betterIdx]
      split
      · exact le_of_lt (by assumption)
      · exact le_refl _
    have hcc : |v c| ≤ |v (betterIdx v a c)| := by
      rw [betterIdx]
      split
      · exact le_refl _
      · exact le_of_not_lt (by assumption)
    refine ⟨le_trans hac h1, fun b hb => ?_⟩
    rcases List.mem_cons.mp hb with hbc | hbl
    · subst hbc
      exact le_trans hcc h1
    · exact h2 b hbl

lemma domIdx_max {D : ℕ} (v : Vec D) (hD : 0 < D) (j : Fin D) :
    |v j| ≤ |v (domIdx v hD)| :=
  (foldl_betterIdx_ge v (List.finRange D) ⟨0, hD⟩).2 j (List.mem_finRange j)

lemma domIdx_neg {D : ℕ} (v : Vec D) (hD : 0 < D) :
    domIdx (fun j => - v j) hD = domIdx v hD := by
  rw [domIdx, domIdx]
  have hb : betterIdx (fun j => - v j) = betterIdx v := by
    funext a b
    rw [betterIdx, betterIdx]
    simp only [abs_neg]
  rw [hb]

lemma domIdx_ne_zero {D : ℕ} (v : Vec D) (hD : 0 < D) (hv : ∃ j, v j ≠ 0) :
    v (domIdx v hD) ≠ 0 := by
  obtain ⟨j, hj⟩ := hv
  intro h0
  have hle := domIdx_max v hD j
  rw [h0, abs_zero] at hle
  exact hj (abs_eq_zero.mp (le_antisymm hle (abs_nonneg _)))

lemma fixSign_neg {D : ℕ} (hD : 0 < D) (v : Vec D) (hv : ∃ j, v j ≠ 0) :
    fixSign hD (fun j => - v j) = fixSign hD v := by
  have hnz := domIdx_ne_zero v hD hv
  unfold fixSign
  rw [domIdx_neg v hD]
  simp only [neg_lt_zero]
  by_cases h : v (domIdx v hD) < 0
  · rw [if_neg (by linarith), if_pos h]
  · have h' : 0 < v (domIdx v hD) := lt_of_le_of_ne (le_of_not_lt h) (Ne.symm hnz)
    rw [if_pos h', if_neg h]
    funext j
    simp only [neg_neg]

/-- C8: the eigenvector sign convention (largest-magnitude component forced
positive) makes the decomposition deterministic: two eigendecompositions of
the same matrix that agree except for the arbitrary sign of each eigenvector
become literally identical after the convention is applied, so the whole
(functional) pipeline — in particular every PrincipalBasis built from them —
produces identical output on both runs, eigenvector signs included. -/
theorem sign_convention_deterministic {D : ℕ} (hD : 0 < D)
    (ps1 ps2 : List (ℚ × Vec D)) (hlen : ps1.length = ps2.length)
    (hup : ∀ k : Fin ps1.length,
      (ps1.get k).1 = (ps2.get (Fin.cast hlen k)).1 ∧
      ((ps1.get k).2 = (ps2.get (Fin.cast hlen k)).2 ∨
        (ps1.get k).2 = fun j => - (ps2.get (Fin.cast hlen k)).2 j))
    (hnz : ∀ p ∈ ps2, ∃ j, p.2 j ≠ 0) :
    ps1.map (fixSignPair hD) = ps2.map (fixSignPair hD) ∧
    ∀ K, principalBasis (ps1.map (fixSignPair hD)) K =
      principalBasis (ps2.map (fixSignPair hD)) K := by
  have hmap : ps1.map (fixSignPair hD) = ps2.map (fixSignPair hD) := by
    refine List.ext_getElem (by simp [hlen]) fun k hk1 hk2 => ?_
    simp only [List.getElem_map]
    have hk : k < ps1.length := by simpa using hk1
    obtain ⟨he, hv⟩ := hup ⟨k, hk⟩
    simp only [List.get_eq_getElem, Fin.coe_cast] at he hv
    have hmem : ps2[k] ∈ ps2 := List.getElem_mem _
    refine Prod.ext_iff.mpr ⟨he, ?_⟩
    rcases hv with hv | hv
    · rw [fixSignPair, fixSignPair, hv]
    · rw [fixSignPair, fixSignPair, hv]
      exact fixSign_neg hD _ (hnz _ hmem)
  exact ⟨hmap, fun K => by rw [hmap]⟩

/-- The sign-flipped fixture pair lists for the C8 witness. -/
def ps1W : List (ℚ × Vec 2) := [(2, ![1, -2])]

/-- Same eigenvalue, opposite eigenvector sign. -/
def ps2W : List (ℚ × Vec 2) := [(2, ![-1, 2])]

/-- Witness for C8: the two sign-flipped single-pair decompositions agree
after the sign convention. -/
theorem sign_convention_deterministic_witness :
    (0 < 2 ∧ ps1W.length = ps2W.length ∧
      (∀ p ∈ ps2W, ∃ j, p.2 j ≠ 0)) ∧
    (ps1W.map (fixSignPair (by omega)) = ps2W.map (fixSignPair (by omega)) ∧
    ∀ K, principalBasis (ps1W.map (fixSignPair (by omega))) K =
      principalBasis (ps2W.map (fixSignPair (by omega))) K) :=
  ⟨⟨by omega, rfl, fun p hp => by
      rcases List.mem_cons.mp hp with h | hp
      · subst h
        exact ⟨0, by norm_num⟩
      · exact absurd hp (List.not_mem_nil _)⟩,
    sign_convention_deterministic (by omega) ps1W ps2W rfl
      (fun k => by
        fin_cases k
        refine ⟨rfl, Or.inr ?_⟩
        funext j
        fin_cases j <;> norm_num [ps1W, ps2W])
      (fun p hp => by
        rcases List.mem_cons.mp hp with h | hp
        · subst h
          exact ⟨0, by norm_num⟩
        · exact absurd hp (List.not_mem_nil _))⟩

/-! ### C1: the Eigendecomposer (over ℝ, via the spectral theorem) -/

lemma isHermitian_of_isSymm {D : ℕ} (C : Matrix (Fin D) (Fin D) ℝ)
    (h : C.IsSymm) : C.IsHermitian := by
  rw [Matrix.IsHermitian, Matrix.conjTranspose_eq_transpose_of_trivial]
  exact h

/-- Modelled from the spec: the Eigendecomposer (the notebook's
`np.linalg.eig` cell is an unfilled exercise stub).  For a real symmetric
`D×D` matrix it returns the `D` (eigenvalue, eigenvector) pairs — one for
each index of `Fin D` — supplied by the spectral theorem for Hermitian
matrices. -/
noncomputable def eigendecompose {D : ℕ} (C : Matrix (Fin D) (Fin D) ℝ)
    (hC : C.IsSymm) : Fin D → ℝ × (Fin D → ℝ) :=
  fun i => ((isHermitian_of_isSymm C hC).eigenvalues i,
    fun j => ((isHermitian_of_isSymm C hC).eigenvectorBasis i) j)

/-- C1: for every real symmetric `D×D` matrix, the Eigendecomposer returns
exactly `D` (eigenvalue, eigenvector) pairs (indexed by `Fin D`) whose
eigenvectors are mutually orthonormal (`v_i · v_j = 0` for `i ≠ j`,
`v_i · v_i = 1`) and which satisfy `C v = λ v` exactly, hence within any
residual tolerance. -/
theorem eigendecomposer_contract {D : ℕ} (C : Matrix (Fin D) (Fin D) ℝ)
    (hC : C.IsSymm) :
    (∀ i j : Fin D,
      (∑ m, (eigendecompose C hC i).2 m * (eigendecompose C hC j).2 m) =
        if i = j then 1 else 0) ∧
    (∀ i : Fin D, C.mulVec (eigendecompose C hC i).2 =
      (eigendecompose C hC i).1 • (eigendecompose C hC i).2) := by
  constructor
  · intro i j
    have horth := (isHermitian_of_isSymm C hC).eigenvectorBasis.orthonormal
    rw [orthonormal_iff_ite] at horth
    have h := horth i j
    rw [PiLp.inner_apply] at h
    simpa [RCLike.inner_apply, starRingEnd_apply] using h
  · intro i
    exact (isHermitian_of_isSymm C hC).mulVec_eigenvectorBasis i

lemma isSymm_one2 : (1 : Matrix (Fin 2) (Fin 2) ℝ).IsSymm :=
  Matrix.IsSymm.ext fun i j => by simp [Matrix.one_apply, eq_comm]

/-- Witness for C1 at the symmetric matrix `1 : Matrix (Fin 2) (Fin 2) ℝ`. -/
theorem eigendecomposer_contract_witness :
    (1 : Matrix (Fin 2) (Fin 2) ℝ).IsSymm ∧
    ((∀ i j : Fin 2,
      (∑ m, (eigendecompose 1 isSymm_one2 i).2 m *
        (eigendecompose 1 isSymm_one2 j).2 m) = if i = j then 1 else 0) ∧
    (∀ i : Fin 2, (1 : Matrix (Fin 2) (Fin 2) ℝ).mulVec
        (eigendecompose 1 isSymm_one2 i).2 =
      (eigendecompose 1 isSymm_one2 i).1 • (eigendecompose 1 isSymm_one2 i).2)) :=
  ⟨isSymm_one2, eigendecomposer_contract 1 isSymm_one2⟩

end PCA
